import Mathlib

/-!
# Verification of the Huffman file compressor (`huffman_file.py`)

Shallow embedding of the coding engine of `src/huffman_file.py`:
* bit strings are `List Bool` (`false` = the character `'0'`, `true` = `'1'`),
* bytes are `Nat` values below 256,
* Python dicts (`self.codes`, `self.reverse_mapping`) are insertion-ordered
  association lists with the usual dict update semantics,
* the priority queue is CPython's `heapq` (binary heap on a list, using only
  `<`, which `HuffmanNode.__lt__` defines as frequency comparison), embedded
  operation by operation,
* raised exceptions (`ValueError`, `KeyError`) are modelled by `Option`:
  a function that can raise returns `none` on the raising paths.
-/

namespace Huffman

/-! ## Association lists with Python-dict semantics -/

/-- Lookup in an insertion-ordered association list: `d[k]` / `k in d`. -/
def dictFind {α β : Type} [DecidableEq α] : List (α × β) → α → Option β
  | [], _ => none
  | (k', v) :: rest, k => if k' = k then some v else dictFind rest k

/-- `d[k] = v` on a Python dict: overwrite in place if the key is present,
append otherwise. -/
def dictInsert {α β : Type} [DecidableEq α] : List (α × β) → α → β → List (α × β)
  | [], k, v => [(k, v)]
  | (k', v') :: rest, k, v =>
      if k' = k then (k', v) :: rest else (k', v') :: dictInsert rest k v

/-- Repeated dict assignment of a list of key/value pairs. -/
def insertAll {α β : Type} [DecidableEq α] (l : List (α × β)) (ps : List (α × β)) :
    List (α × β) :=
  ps.foldl (fun acc p => dictInsert acc p.1 p.2) l

/-! ## Bit strings and bytes

`int(s, 2)` parses a binary numeral left to right; `format(n, '08b')` prints
the 8-bit big-endian numeral of `n < 256`. -/

/-- `int(s, 2)` on a string of `'0'`/`'1'` characters. -/
def bitsToNat (bits : List Bool) : Nat :=
  bits.foldl (fun a b => 2 * a + b.toNat) 0

/-- `format(n, '0wb')`: the `w`-digit big-endian binary numeral of `n`
(faithful to the source for `n < 2 ^ w`, which holds at every use site). -/
def natToBits : Nat → Nat → List Bool
  | 0, _ => []
  | w + 1, n => natToBits w (n / 2) ++ [n % 2 == 1]

/-- The byte-slicing loop of `get_byte_array`: consecutive 8-bit groups,
each converted with `int(byte, 2)`. -/
def toBytes (l : List Bool) : List Nat :=
  if h : l = [] then [] else bitsToNat (l.take 8) :: toBytes (l.drop 8)
termination_by l.length
decreasing_by
  simp only [List.length_drop]
  have hl : l.length ≠ 0 := fun hz => h (List.eq_nil_of_length_eq_zero hz)
  omega

/-- The bit-expansion loop of `decompress`:
`bit_string += format(byte, '08b')` over the byte sequence. -/
def bytesToBits (bytes : List Nat) : List Bool :=
  bytes.foldl (fun acc b => acc ++ natToBits 8 b) []

/-! ## `HuffmanNode` and CPython's `heapq`

A node built by the program is either a leaf `HuffmanNode(char, freq)`
(children `None`) or a merged node `HuffmanNode(None, freq)` with exactly two
children, so the node type is the tagged variant below.  `__lt__` compares
frequencies only, and `heapq` uses only `<`. -/

inductive HuffmanNode where
  | leaf (char : Char) (freq : Nat)
  | internal (freq : Nat) (left right : HuffmanNode)
deriving DecidableEq, Inhabited

/-- `node.freq`. -/
def HuffmanNode.freq : HuffmanNode → Nat
  | .leaf _ f => f
  | .internal f _ _ => f

/-- The characters stored at the leaves of a node, left to right. -/
def HuffmanNode.leaves : HuffmanNode → List Char
  | .leaf c _ => [c]
  | .internal _ l r => l.leaves ++ r.leaves

/-- The inner `while pos > startpos` loop of `heapq._siftdown`, returning the
array state just before the final `heap[pos] = newitem` write together with
the final `pos`. -/
def siftdownLoop (heap : List HuffmanNode) (startpos pos : Nat) (newitem : HuffmanNode) :
    List HuffmanNode × Nat :=
  if h : startpos < pos then
    let parentpos := (pos - 1) / 2
    let parent := heap.getD parentpos default
    if newitem.freq < parent.freq then
      siftdownLoop (heap.set pos parent) startpos parentpos newitem
    else (heap, pos)
  else (heap, pos)
termination_by pos
decreasing_by
  exact lt_of_le_of_lt (Nat.div_le_self _ _) (by omega)

/-- `heapq._siftdown(heap, startpos, pos)`. -/
def pySiftdown (heap : List HuffmanNode) (startpos pos : Nat) : List HuffmanNode :=
  let newitem := heap.getD pos default
  let r := siftdownLoop heap startpos pos newitem
  r.1.set r.2 newitem

/-- The `while childpos < endpos` loop of `heapq._siftup` (`childpos` is
recomputed as `2*pos + 1` at each turn, as in the source), returning the array
just before `heap[pos] = newitem` together with the final `pos`. -/
def siftupLoop (heap : List HuffmanNode) (pos endpos : Nat) : List HuffmanNode × Nat :=
  let childpos := 2 * pos + 1
  if h : childpos < endpos then
    let rightpos := childpos + 1
    let cp :=
      if rightpos < endpos ∧
          ¬ (heap.getD childpos default).freq < (heap.getD rightpos default).freq
      then rightpos else childpos
    siftupLoop (heap.set pos (heap.getD cp default)) cp endpos
  else (heap, pos)
termination_by endpos - pos
decreasing_by
  simp only [cp, childpos] at *
  split <;> omega

/-- `heapq._siftup(heap, pos)`. -/
def pySiftup (heap : List HuffmanNode) (pos : Nat) : List HuffmanNode :=
  let endpos := heap.length
  let startpos := pos
  let newitem := heap.getD pos default
  let r := siftupLoop heap pos endpos
  pySiftdown (r.1.set r.2 newitem) startpos r.2

/-- `heapq.heappush(heap, item)`: append, then sift down from the last slot. -/
def heappush (heap : List HuffmanNode) (item : HuffmanNode) : List HuffmanNode :=
  pySiftdown (heap ++ [item]) 0 heap.length

/-- `heapq.heappop(heap)`: `none` models the `IndexError` on an empty heap. -/
def heappop (heap : List HuffmanNode) : Option (HuffmanNode × List HuffmanNode) :=
  match heap with
  | [] => none
  | _ :: _ =>
    let lastelt := heap.getD (heap.length - 1) default
    let rest := heap.dropLast
    if rest.isEmpty then some (lastelt, rest)
    else
      let returnitem := rest.getD 0 default
      some (returnitem, pySiftup (rest.set 0 lastelt) 0)

/-! ### Heap operations preserve the expected lengths -/

theorem siftdownLoop_length (startpos : Nat) (newitem : HuffmanNode) :
    ∀ (pos : Nat) (heap : List HuffmanNode),
      (siftdownLoop heap startpos pos newitem).1.length = heap.length ∧
        (siftdownLoop heap startpos pos newitem).2 ≤ pos := by
  intro pos
  induction pos using Nat.strong_induction_on with
  | _ pos ih =>
    intro heap
    rw [siftdownLoop]
    split
    · dsimp only
      split
      · rename_i hsp hlt
        have hp : (pos - 1) / 2 < pos :=
          lt_of_le_of_lt (Nat.div_le_self _ _) (by omega)
        have h2 := ih _ hp (heap.set pos (heap.getD ((pos - 1) / 2) default))
        refine ⟨by rw [h2.1]; simp, le_trans h2.2 (le_of_lt hp)⟩
      · exact ⟨rfl, le_refl _⟩
    · exact ⟨rfl, le_refl _⟩

theorem pySiftdown_length (heap : List HuffmanNode) (startpos pos : Nat) :
    (pySiftdown heap startpos pos).length = heap.length := by
  unfold pySiftdown
  simp only [List.length_set]
  exact (siftdownLoop_length startpos _ pos heap).1

theorem siftupLoop_length_aux :
    ∀ (k : Nat) (heap : List HuffmanNode) (pos endpos : Nat), endpos - pos ≤ k →
      (siftupLoop heap pos endpos).1.length = heap.length := by
  intro k
  induction k with
  | zero =>
    intro heap pos endpos hk
    rw [siftupLoop]
    rw [dif_neg (by omega)]
  | succ k ih =>
    intro heap pos endpos hk
    rw [siftupLoop]
    split
    · rename_i h
      dsimp only
      rw [ih _ _ _ (by split <;> omega)]
      simp
    · rfl

theorem siftupLoop_length (heap : List HuffmanNode) (pos endpos : Nat) :
    (siftupLoop heap pos endpos).1.length = heap.length :=
  siftupLoop_length_aux (endpos - pos) heap pos endpos (le_refl _)

theorem pySiftup_length (heap : List HuffmanNode) (pos : Nat) :
    (pySiftup heap pos).length = heap.length := by
  unfold pySiftup
  rw [pySiftdown_length]
  simp only [List.length_set]
  exact siftupLoop_length _ _ _

theorem heappush_length (heap : List HuffmanNode) (item : HuffmanNode) :
    (heappush heap item).length = heap.length + 1 := by
  unfold heappush
  rw [pySiftdown_length]
  simp

theorem heappop_length (heap : List HuffmanNode) (r : HuffmanNode)
    (rest : List HuffmanNode) (h : heappop heap = some (r, rest)) :
    rest.length = heap.length - 1 := by
  match heap with
  | [] => simp [heappop] at h
  | a :: t =>
    simp only [heappop] at h
    split at h
    · cases h
      simp
    · cases h
      rw [pySiftup_length]
      simp

/-! ## The `HuffmanCoding` class -/

/-- The mutable state of a `HuffmanCoding` instance. -/
structure HuffmanCoding where
  heap : List HuffmanNode
  codes : List (Char × List Bool)
  reverse_mapping : List (List Bool × Char)
deriving DecidableEq

/-- `HuffmanCoding.__init__`. -/
def HuffmanCoding.init : HuffmanCoding := ⟨[], [], []⟩

/-- One `counts[c] += 1` step of building a `Counter` (a dict subclass with
first-occurrence key order). -/
def insertCount (l : List (Char × Nat)) (c : Char) : List (Char × Nat) :=
  match l with
  | [] => [(c, 1)]
  | (d, n) :: rest => if d = c then (d, n + 1) :: rest else (d, n) :: insertCount rest c

/-- `make_frequency_dict(text)`, i.e. `Counter(text)` in first-occurrence
order. -/
def make_frequency_dict (text : List Char) : List (Char × Nat) :=
  text.foldl insertCount []

/-- `make_heap(frequency)`: push a leaf per dict entry, in dict order. -/
def make_heap (heap : List HuffmanNode) (frequency : List (Char × Nat)) :
    List HuffmanNode :=
  frequency.foldl (fun h cf => heappush h (HuffmanNode.leaf cf.1 cf.2)) heap

/-- The `while len(self.heap) > 1` loop of `merge_nodes`.  The `heappop`
failure branches are unreachable because the loop guard keeps the heap length
above 1. -/
def merge_nodes_loop (heap : List HuffmanNode) : List HuffmanNode :=
  if h : 1 < heap.length then
    match h1 : heappop heap with
    | none => heap
    | some (node1, heapA) =>
      match h2 : heappop heapA with
      | none => heap
      | some (node2, heapB) =>
        merge_nodes_loop
          (heappush heapB (HuffmanNode.internal (node1.freq + node2.freq) node1 node2))
  else heap
termination_by heap.length
decreasing_by
  rw [heappush_length]
  have hA := heappop_length heap node1 heapA h1
  have hB := heappop_length heapA node2 heapB h2
  omega

/-- `merge_nodes(self)`. -/
def merge_nodes (st : HuffmanCoding) : HuffmanCoding :=
  { st with heap := merge_nodes_loop st.heap }

/-- `make_codes_helper(self, node, current_code)`.  The `node is None` branch
of the source is unreachable on the nodes the program builds (leaves return
before recursing, merged nodes always have two children), so it has no
counterpart here.  `current_code or "0"` maps the empty path to `"0"`. -/
def make_codes_helper (st : HuffmanCoding) (node : HuffmanNode) (current_code : List Bool) :
    HuffmanCoding :=
  match node with
  | .leaf c _ =>
      let code := if current_code = [] then [false] else current_code
      { st with codes := dictInsert st.codes c code,
                reverse_mapping := dictInsert st.reverse_mapping code c }
  | .internal _ l r =>
      let st' := make_codes_helper st l (current_code ++ [false])
      make_codes_helper st' r (current_code ++ [true])

/-- `make_codes(self)`: return unchanged on an empty heap, otherwise pop the
root and traverse it with the empty path. -/
def make_codes (st : HuffmanCoding) : HuffmanCoding :=
  match heappop st.heap with
  | none => st
  | some (root, rest) => make_codes_helper { st with heap := rest } root []

/-- The per-character encoding loop of `get_encoded_text`; `none` models the
`KeyError` for a character without a code. -/
def encodeLoop (codes : List (Char × List Bool)) : List Char → List Bool →
    Option (List Bool)
  | [], acc => some acc
  | c :: rest, acc =>
      match dictFind codes c with
      | none => none
      | some code => encodeLoop codes rest (acc ++ code)

/-- `get_encoded_text(self, text)`; `none` models the `KeyError` raised when
no codes are available or a character is missing. -/
def get_encoded_text (codes : List (Char × List Bool)) (text : List Char) :
    Option (List Bool) :=
  if codes = [] then none else encodeLoop codes text []

/-- The `padding_amount` computation of `pad_encoded_text`:
`8 - (len % 8)`, mapped to `0` when it equals `8`. -/
def padding_amount_of (n : Nat) : Nat :=
  if 8 - n % 8 = 8 then 0 else 8 - n % 8

/-- `pad_encoded_text(self, encoded_text)`. -/
def pad_encoded_text (encoded_text : List Bool) : List Bool :=
  let padding_amount := padding_amount_of encoded_text.length
  natToBits 8 padding_amount ++ encoded_text ++ List.replicate padding_amount false

/-- `get_byte_array(self, padded_encoded_text)`; `none` models the
`ValueError` on empty input. -/
def get_byte_array (padded_encoded_text : List Bool) : Option (List Nat) :=
  if padded_encoded_text = [] then none else some (toBytes padded_encoded_text)

/-- `compress(self, text)`: returns the `(byte_array, self.codes)` pair
together with the updated instance state; `none` models any raised
exception. -/
def compress (st : HuffmanCoding) (text : List Char) :
    Option ((List Nat × List (Char × List Bool)) × HuffmanCoding) :=
  if text = [] then none
  else
    let frequency := make_frequency_dict text
    let st1 : HuffmanCoding := { st with heap := make_heap st.heap frequency }
    let st2 := merge_nodes st1
    let st3 := make_codes st2
    match get_encoded_text st3.codes text with
    | none => none
    | some encoded_text =>
      match get_byte_array (pad_encoded_text encoded_text) with
      | none => none
      | some byte_array => some ((byte_array, st3.codes), st3)

/-- `remove_padding(self, bit_string)`; `none` models the `ValueError`s.  The
`int(padding_info, 2)` parse cannot fail because the bit string consists of
binary digits by construction. -/
def remove_padding (bit_string : List Bool) : Option (List Bool) :=
  if bit_string.length < 8 then none
  else
    let padding_amount := bitsToNat (bit_string.take 8)
    if 7 < padding_amount ∨
        (0 < padding_amount ∧ bit_string.length < 8 + padding_amount) then none
    else
      let rest :=
        if 0 < padding_amount
        then (bit_string.take (bit_string.length - padding_amount)).drop 8
        else bit_string.drop 8
      if rest = [] then none else some rest

/-- The bit-walking loop of `decode_text`: accumulate a candidate code, emit a
character whenever the candidate is a key of `reverse_mapping`.  Returns the
decoded text and the leftover candidate.  The `bit not in '01'` check of the
source is vacuous here because bits are Booleans. -/
def decode_text_loop (rm : List (List Bool × Char)) :
    List Bool → List Bool → List Char → List Char × List Bool
  | [], current_code, decoded => (decoded, current_code)
  | bit :: rest, current_code, decoded =>
      let current_code' := current_code ++ [bit]
      match dictFind rm current_code' with
      | some ch => decode_text_loop rm rest [] (decoded ++ [ch])
      | none => decode_text_loop rm rest current_code' decoded

/-- `decode_text(self, encoded_text)`; `none` models the `ValueError`s on
empty input and on a non-empty leftover candidate. -/
def decode_text (rm : List (List Bool × Char)) (encoded_text : List Bool) :
    Option (List Char) :=
  if encoded_text = [] then none
  else
    let r := decode_text_loop rm encoded_text [] []
    if r.2 = [] then some r.1 else none

/-- `decompress(self, byte_array)`: expand bytes to bits, then
`remove_padding` and `decode_text`, catching `ValueError` as `""`. -/
def decompress (st : HuffmanCoding) (byte_array : List Nat) : List Char :=
  let bit_string := bytesToBits byte_array
  match remove_padding bit_string with
  | none => []
  | some encoded_text =>
    match decode_text st.reverse_mapping encoded_text with
    | none => []
    | some t => t

/-! ## Lemmas about dict operations -/

section DictLemmas

variable {α β : Type} [DecidableEq α]

theorem dictFind_eq_none_iff (l : List (α × β)) (k : α) :
    dictFind l k = none ↔ k ∉ l.map Prod.fst := by
  induction l with
  | nil => simp [dictFind]
  | cons p rest ih =>
    obtain ⟨k', v⟩ := p
    simp only [dictFind, List.map_cons, List.mem_cons]
    split
    · rename_i he
      subst he
      simp
    · rename_i he
      rw [ih]
      constructor
      · intro h hmem
        rcases hmem with h1 | h2
        · exact he h1.symm
        · exact h h2
      · intro h hmem
        exact h (Or.inr hmem)

theorem dictFind_mem {l : List (α × β)} {k : α} {v : β} (h : dictFind l k = some v) :
    (k, v) ∈ l := by
  induction l with
  | nil => simp [dictFind] at h
  | cons p rest ih =>
    obtain ⟨k', v'⟩ := p
    simp only [dictFind] at h
    by_cases hk : k' = k
    · rw [if_pos hk] at h
      cases h
      subst hk
      simp
    · rw [if_neg hk] at h
      simp [ih h]

theorem dictFind_isSome_of_mem_keys {l : List (α × β)} {k : α}
    (h : k ∈ l.map Prod.fst) : ∃ v, dictFind l k = some v := by
  cases hf : dictFind l k with
  | none => exact absurd h ((dictFind_eq_none_iff l k).mp hf)
  | some v => exact ⟨v, rfl⟩

theorem dictFind_of_mem_nodup {l : List (α × β)} {k : α} {v : β}
    (hnd : (l.map Prod.fst).Nodup) (hmem : (k, v) ∈ l) : dictFind l k = some v := by
  induction l with
  | nil => simp at hmem
  | cons p rest ih =>
    obtain ⟨k', v'⟩ := p
    simp only [List.map_cons, List.nodup_cons] at hnd
    rcases List.mem_cons.mp hmem with heq | hmem'
    · cases heq
      simp [dictFind]
    · have hk : k ∈ rest.map Prod.fst := List.mem_map.mpr ⟨(k, v), hmem', rfl⟩
      have hne : k' ≠ k := fun he => hnd.1 (he ▸ hk)
      simp only [dictFind, if_neg hne]
      exact ih hnd.2 hmem'

theorem dictInsert_of_find_self {l : List (α × β)} {k : α} {v : β}
    (h : dictFind l k = some v) : dictInsert l k v = l := by
  induction l with
  | nil => simp [dictFind] at h
  | cons p rest ih =>
    obtain ⟨k', v'⟩ := p
    simp only [dictFind] at h
    by_cases hk : k' = k
    · rw [if_pos hk] at h
      cases h
      simp only [dictInsert, if_pos hk]
    · rw [if_neg hk] at h
      simp only [dictInsert, if_neg hk]
      rw [ih h]

theorem dictInsert_of_not_mem {l : List (α × β)} {k : α} (v : β)
    (h : k ∉ l.map Prod.fst) : dictInsert l k v = l ++ [(k, v)] := by
  induction l with
  | nil => rfl
  | cons p rest ih =>
    obtain ⟨k', v'⟩ := p
    simp only [List.map_cons, List.mem_cons, not_or] at h
    have hne : ¬ k' = k := fun he => h.1 he.symm
    simp only [dictInsert, if_neg hne, List.cons_append, List.cons.injEq, true_and]
    exact ih h.2

theorem dictInsert_ne_nil (l : List (α × β)) (k : α) (v : β) :
    dictInsert l k v ≠ [] := by
  cases l with
  | nil => simp [dictInsert]
  | cons p rest =>
    obtain ⟨k', v'⟩ := p
    simp only [dictInsert]
    split <;> simp

theorem mem_keys_dictInsert (l : List (α × β)) (k j : α) (v : β) :
    j ∈ (dictInsert l k v).map Prod.fst ↔ j ∈ l.map Prod.fst ∨ j = k := by
  induction l with
  | nil => simp [dictInsert]
  | cons p rest ih =>
    obtain ⟨k', v'⟩ := p
    simp only [dictInsert]
    split
    · rename_i he
      subst he
      simp
      tauto
    · simp only [List.map_cons, List.mem_cons, ih]
      tauto

theorem nodup_keys_dictInsert (l : List (α × β)) (k : α) (v : β)
    (h : (l.map Prod.fst).Nodup) : ((dictInsert l k v).map Prod.fst).Nodup := by
  induction l with
  | nil => simp [dictInsert]
  | cons p rest ih =>
    obtain ⟨k', v'⟩ := p
    simp only [List.map_cons, List.nodup_cons] at h
    simp only [dictInsert]
    split
    · rename_i he
      subst he
      simp only [List.map_cons, List.nodup_cons]
      exact h
    · rename_i he
      simp only [List.map_cons, List.nodup_cons]
      refine ⟨fun hmem => ?_, ih h.2⟩
      rcases (mem_keys_dictInsert rest k k' v).mp hmem with h1 | h2
      · exact h.1 h1
      · exact he h2

theorem insertAll_nil_right (l : List (α × β)) : insertAll l [] = l := rfl

theorem insertAll_cons (l : List (α × β)) (p : α × β) (ps : List (α × β)) :
    insertAll l (p :: ps) = insertAll (dictInsert l p.1 p.2) ps := rfl

theorem insertAll_ne_nil (l : List (α × β)) (ps : List (α × β))
    (h : l ≠ [] ∨ ps ≠ []) : insertAll l ps ≠ [] := by
  induction ps generalizing l with
  | nil =>
    rcases h with h | h
    · exact h
    · exact absurd rfl h
  | cons p ps ih =>
    rw [insertAll_cons]
    exact ih _ (Or.inl (dictInsert_ne_nil _ _ _))

theorem insertAll_of_disjoint_nodup (l : List (α × β)) (ps : List (α × β))
    (hdisj : ∀ p ∈ ps, p.1 ∉ l.map Prod.fst) (hnd : (ps.map Prod.fst).Nodup) :
    insertAll l ps = l ++ ps := by
  induction ps generalizing l with
  | nil => simp [insertAll_nil_right]
  | cons p ps ih =>
    rw [insertAll_cons, dictInsert_of_not_mem _ (hdisj p (List.mem_cons_self p ps))]
    simp only [List.map_cons, List.nodup_cons] at hnd
    rw [ih (l ++ [p]) ?_ hnd.2]
    · simp
    · intro q hq
      simp only [List.map_append, List.mem_append, List.map_cons, not_or]
      refine ⟨hdisj q (List.mem_cons_of_mem p hq), ?_⟩
      intro hc
      simp only [List.map_nil, List.mem_singleton] at hc
      exact hnd.1 (hc ▸ List.mem_map.mpr ⟨q, hq, rfl⟩)

theorem insertAll_nil_left (ps : List (α × β)) (hnd : (ps.map Prod.fst).Nodup) :
    insertAll [] ps = ps := by
  rw [insertAll_of_disjoint_nodup [] ps (by simp) hnd]
  simp

theorem insertAll_of_forall_find (l : List (α × β)) (ps : List (α × β))
    (h : ∀ p ∈ ps, dictFind l p.1 = some p.2) : insertAll l ps = l := by
  induction ps with
  | nil => rfl
  | cons p ps ih =>
    rw [insertAll_cons, dictInsert_of_find_self (h p (List.mem_cons_self p ps))]
    exact ih fun q hq => h q (List.mem_cons_of_mem p hq)

theorem mem_keys_insertAll (l : List (α × β)) (ps : List (α × β)) (j : α) :
    j ∈ (insertAll l ps).map Prod.fst ↔ j ∈ l.map Prod.fst ∨ j ∈ ps.map Prod.fst := by
  induction ps generalizing l with
  | nil => simp [insertAll_nil_right]
  | cons p ps ih =>
    rw [insertAll_cons, ih]
    simp only [mem_keys_dictInsert, List.map_cons, List.mem_cons]
    tauto

theorem nodup_keys_insertAll (l : List (α × β)) (ps : List (α × β))
    (h : (l.map Prod.fst).Nodup) : ((insertAll l ps).map Prod.fst).Nodup := by
  induction ps generalizing l with
  | nil => exact h
  | cons p ps ih =>
    rw [insertAll_cons]
    exact ih _ (nodup_keys_dictInsert _ _ _ h)

theorem dictFind_map_swap [DecidableEq β] {l : List (α × β)} {a : α} {b : β}
    (hnd : (l.map Prod.snd).Nodup) (hmem : (a, b) ∈ l) :
    dictFind (l.map fun p => (p.2, p.1)) b = some a := by
  induction l with
  | nil => simp at hmem
  | cons p rest ih =>
    obtain ⟨x, y⟩ := p
    simp only [List.map_cons, List.nodup_cons] at hnd
    rcases List.mem_cons.mp hmem with heq | hmem'
    · cases heq
      simp [dictFind]
    · have hb : b ∈ rest.map Prod.snd := List.mem_map.mpr ⟨(a, b), hmem', rfl⟩
      have hne : y ≠ b := fun he => hnd.1 (he ▸ hb)
      simp only [List.map_cons, dictFind, if_neg hne]
      exact ih hnd.2 hmem'

end DictLemmas

/-! ## Lemmas about bit strings and bytes -/

theorem natToBits_length (w n : Nat) : (natToBits w n).length = w := by
  induction w generalizing n with
  | zero => rfl
  | succ w ih => simp [natToBits, ih]

theorem bitsToNat_append_bit (bs : List Bool) (b : Bool) :
    bitsToNat (bs ++ [b]) = 2 * bitsToNat bs + b.toNat := by
  simp [bitsToNat, List.foldl_append]

theorem bitsToNat_natToBits (w n : Nat) (h : n < 2 ^ w) :
    bitsToNat (natToBits w n) = n := by
  induction w generalizing n with
  | zero =>
    simp only [pow_zero, Nat.lt_one_iff] at h
    simp [natToBits, bitsToNat, h]
  | succ w ih =>
    have hpow : 2 ^ (w + 1) = 2 * 2 ^ w := by ring
    rw [hpow] at h
    have hdiv : n / 2 < 2 ^ w := by omega
    simp only [natToBits, bitsToNat_append_bit, ih _ hdiv]
    rcases Nat.mod_two_eq_zero_or_one n with h2 | h2 <;> simp [h2] <;> omega

theorem natToBits_bitsToNat (bs : List Bool) :
    natToBits bs.length (bitsToNat bs) = bs := by
  induction bs using List.reverseRecOn with
  | nil => rfl
  | append_singleton ys b ih =>
    rw [bitsToNat_append_bit]
    simp only [List.length_append, List.length_singleton, natToBits]
    have hdiv : (2 * bitsToNat ys + b.toNat) / 2 = bitsToNat ys := by
      cases b <;> simp [Bool.toNat] <;> omega
    have hmod : (2 * bitsToNat ys + b.toNat) % 2 = b.toNat := by
      cases b <;> simp [Bool.toNat] <;> omega
    rw [hdiv, hmod, ih]
    cases b <;> simp

theorem toBytes_nil : toBytes [] = [] := by rw [toBytes]; rfl

theorem toBytes_cons (l : List Bool) (h : l ≠ []) :
    toBytes l = bitsToNat (l.take 8) :: toBytes (l.drop 8) := by
  rw [toBytes]
  simp [h]

theorem toBytes_length_mul (l : List Bool) (h : l.length % 8 = 0) :
    (toBytes l).length * 8 = l.length := by
  suffices H : ∀ n (l : List Bool), l.length = n → l.length % 8 = 0 →
      (toBytes l).length * 8 = l.length from H l.length l rfl h
  intro n
  induction n using Nat.strong_induction_on with
  | _ n ih =>
    intro l hl h
    by_cases hnil : l = []
    · subst hnil
      simp [toBytes_nil]
    · have hlen : l.length ≠ 0 := fun hz => hnil (List.eq_nil_of_length_eq_zero hz)
      have h8 : 8 ≤ l.length := by omega
      rw [toBytes_cons l hnil]
      have hdl : (l.drop 8).length = l.length - 8 := by simp
      have ihd := ih (l.drop 8).length (by omega) (l.drop 8) rfl (by rw [hdl]; omega)
      simp only [List.length_cons]
      omega

theorem bytesToBits_eq_flatMap (bytes : List Nat) :
    bytesToBits bytes = bytes.flatMap (natToBits 8) := by
  have aux : ∀ (bs : List Nat) (acc : List Bool),
      bs.foldl (fun a b => a ++ natToBits 8 b) acc = acc ++ bs.flatMap (natToBits 8) := by
    intro bs
    induction bs with
    | nil => simp
    | cons b rest ih =>
      intro acc
      simp only [List.foldl_cons, ih, List.flatMap_cons, List.append_assoc]
  exact aux bytes []

theorem bytesToBits_toBytes (l : List Bool) (h : l.length % 8 = 0) :
    bytesToBits (toBytes l) = l := by
  suffices H : ∀ n (l : List Bool), l.length = n → l.length % 8 = 0 →
      bytesToBits (toBytes l) = l from H l.length l rfl h
  intro n
  induction n using Nat.strong_induction_on with
  | _ n ih =>
    intro l hl h
    by_cases hnil : l = []
    · subst hnil
      simp [toBytes_nil, bytesToBits]
    · have hlen : l.length ≠ 0 := fun hz => hnil (List.eq_nil_of_length_eq_zero hz)
      have h8 : 8 ≤ l.length := by omega
      rw [toBytes_cons l hnil, bytesToBits_eq_flatMap, List.flatMap_cons,
        ← bytesToBits_eq_flatMap]
      have htake : (l.take 8).length = 8 := by simp; omega
      have hbits : natToBits 8 (bitsToNat (l.take 8)) = l.take 8 := by
        have h2 := natToBits_bitsToNat (l.take 8)
        rw [htake] at h2
        exact h2
      have hdl : (l.drop 8).length = l.length - 8 := by simp
      rw [hbits, ih (l.drop 8).length (by omega) (l.drop 8) rfl (by rw [hdl]; omega)]
      exact List.take_append_drop 8 l

/-! ## Permutation lemmas for the heap operations -/

section PermHelpers

variable {γ : Type}

theorem set_getD_self (l : List γ) (i : Nat) (d : γ) (h : i < l.length) :
    l.set i (l.getD i d) = l := by
  induction l generalizing i with
  | nil => simp at h
  | cons a t ih =>
    cases i with
    | zero => simp
    | succ j =>
      simp only [List.getD_cons_succ, List.set_cons_succ]
      rw [ih j (by simpa using h)]

theorem getD_cons_set_perm (l : List γ) (j : Nat) (x d : γ) (h : j < l.length) :
    List.Perm (l.getD j d :: l.set j x) (x :: l) := by
  induction l generalizing j with
  | nil => simp at h
  | cons a t ih =>
    cases j with
    | zero =>
      simp only [List.getD_cons_zero, List.set_cons_zero]
      exact List.Perm.swap x a t
    | succ j =>
      simp only [List.getD_cons_succ, List.set_cons_succ]
      have hj : j < t.length := by simpa using h
      exact ((List.Perm.swap a _ _).trans ((ih j hj).cons a)).trans (List.Perm.swap x a t)

theorem cons_set_swap_perm (l : List γ) (i : Nat) (a x : γ) (h : i < l.length) :
    List.Perm (x :: l.set i a) (a :: l.set i x) := by
  induction l generalizing i with
  | nil => simp at h
  | cons b t ih =>
    cases i with
    | zero =>
      simp only [List.set_cons_zero]
      exact List.Perm.swap a x t
    | succ j =>
      simp only [List.set_cons_succ]
      exact ((List.Perm.swap b _ _).trans ((ih j (by simpa using h)).cons b)).trans
        (List.Perm.swap a b _)

theorem set_set_perm (l : List γ) (i j : Nat) (x d : γ)
    (hi : i < l.length) (hj : j < l.length) (hij : i ≠ j) :
    List.Perm ((l.set i (l.getD j d)).set j x) (l.set i x) := by
  induction l generalizing i j with
  | nil => simp at hj
  | cons a t ih =>
    cases i with
    | zero =>
      cases j with
      | zero => exact absurd rfl hij
      | succ j' =>
        simp only [List.getD_cons_succ, List.set_cons_zero, List.set_cons_succ]
        exact getD_cons_set_perm t j' x d (by simpa using hj)
    | succ i' =>
      cases j with
      | zero =>
        simp only [List.getD_cons_zero, List.set_cons_succ, List.set_cons_zero]
        exact cons_set_swap_perm t i' a x (by simpa using hi)
      | succ j' =>
        simp only [List.getD_cons_succ, List.set_cons_succ]
        exact (ih i' j' (by simpa using hi) (by simpa using hj)
          (fun he => hij (by rw [he]))).cons a

end PermHelpers

theorem siftdownLoop_set_perm (startpos : Nat) (ni : HuffmanNode) :
    ∀ (pos : Nat) (heap : List HuffmanNode), pos < heap.length →
      List.Perm
        ((siftdownLoop heap startpos pos ni).1.set (siftdownLoop heap startpos pos ni).2 ni)
        (heap.set pos ni) := by
  intro pos
  induction pos using Nat.strong_induction_on with
  | _ pos ih =>
    intro heap hpos
    rw [siftdownLoop]
    split
    · dsimp only
      split
      · rename_i hsp hlt
        have hp : (pos - 1) / 2 < pos :=
          lt_of_le_of_lt (Nat.div_le_self _ _) (by omega)
        have hlen : (pos - 1) / 2 < (heap.set pos (heap.getD ((pos - 1) / 2) default)).length := by
          simp only [List.length_set]
          omega
        refine (ih _ hp _ hlen).trans ?_
        exact set_set_perm heap pos ((pos - 1) / 2) ni default hpos (by omega) (by omega)
      · exact List.Perm.refl _
    · exact List.Perm.refl _

theorem pySiftdown_perm (heap : List HuffmanNode) (startpos pos : Nat)
    (h : pos < heap.length) : List.Perm (pySiftdown heap startpos pos) heap := by
  unfold pySiftdown
  refine (siftdownLoop_set_perm startpos _ pos heap h).trans ?_
  rw [set_getD_self heap pos default h]

theorem siftupLoop_spec :
    ∀ (k : Nat) (heap : List HuffmanNode) (pos endpos : Nat), endpos - pos ≤ k →
      endpos = heap.length → pos < heap.length →
      (siftupLoop heap pos endpos).2 < heap.length ∧
        ∀ x, List.Perm ((siftupLoop heap pos endpos).1.set (siftupLoop heap pos endpos).2 x)
          (heap.set pos x) := by
  intro k
  induction k with
  | zero =>
    intro heap pos endpos hk he hpos
    rw [siftupLoop, dif_neg (by omega)]
    exact ⟨hpos, fun _ => List.Perm.refl _⟩
  | succ k ih =>
    intro heap pos endpos hk he hpos
    rw [siftupLoop]
    split
    · rename_i h
      dsimp only
      have hcp : (if 2 * pos + 1 + 1 < endpos ∧
            ¬(heap.getD (2 * pos + 1) default).freq < (heap.getD (2 * pos + 1 + 1) default).freq
          then 2 * pos + 1 + 1 else 2 * pos + 1) < endpos := by
        split <;> omega
      have hk' : endpos - (if 2 * pos + 1 + 1 < endpos ∧
            ¬(heap.getD (2 * pos + 1) default).freq < (heap.getD (2 * pos + 1 + 1) default).freq
          then 2 * pos + 1 + 1 else 2 * pos + 1) ≤ k := by
        split <;> omega
      have hlen : endpos =
          (heap.set pos (heap.getD (if 2 * pos + 1 + 1 < endpos ∧
            ¬(heap.getD (2 * pos + 1) default).freq < (heap.getD (2 * pos + 1 + 1) default).freq
          then 2 * pos + 1 + 1 else 2 * pos + 1) default)).length := by
        simp only [List.length_set]
        exact he
      have hres := ih _ _ _ hk' hlen (by rw [← hlen]; exact hcp)
      constructor
      · have := hres.1
        simp only [List.length_set] at this
        exact this
      · intro x
        refine (hres.2 x).trans ?_
        exact set_set_perm heap pos _ x default hpos (by omega) (by split <;> omega)
    · exact ⟨hpos, fun _ => List.Perm.refl _⟩

theorem pySiftup_perm (heap : List HuffmanNode) (pos : Nat) (h : pos < heap.length) :
    List.Perm (pySiftup heap pos) heap := by
  unfold pySiftup
  have hs := siftupLoop_spec (heap.length - pos) heap pos heap.length (le_refl _) rfl h
  have hlen := siftupLoop_length heap pos heap.length
  refine (pySiftdown_perm _ _ _ ?_).trans ?_
  · simp only [List.length_set]
    rw [hlen]
    exact hs.1
  · refine (hs.2 _).trans ?_
    rw [set_getD_self heap pos default h]

theorem heappush_perm (heap : List HuffmanNode) (item : HuffmanNode) :
    List.Perm (heappush heap item) (item :: heap) := by
  unfold heappush
  refine (pySiftdown_perm _ _ _ (by simp)).trans ?_
  exact List.perm_append_singleton item heap

theorem heappop_eq_none_iff (heap : List HuffmanNode) :
    heappop heap = none ↔ heap = [] := by
  cases heap with
  | nil => simp [heappop]
  | cons a t =>
    simp only [heappop]
    constructor
    · intro h
      split at h <;> cases h
    · intro h
      cases h

theorem heappop_perm (heap : List HuffmanNode) (r : HuffmanNode)
    (rest : List HuffmanNode) (h : heappop heap = some (r, rest)) :
    List.Perm (r :: rest) heap := by
  match heap with
  | [] => simp [heappop] at h
  | [a] =>
    have hc : heappop [a] = some (a, []) := rfl
    rw [hc] at h
    cases h
    exact List.Perm.refl _
  | a :: b :: t =>
    have hne : (a :: b :: t) ≠ [] := by simp
    simp only [heappop] at h
    rw [if_neg (by simp [List.dropLast])] at h
    cases h
    have hlast : (a :: b :: t).getD ((a :: b :: t).length - 1) default =
        (a :: b :: t).getLast hne := by
      rw [List.getD_eq_getElem _ default (by simp), List.getLast_eq_getElem]
    have hdrop : (a :: b :: t).dropLast = a :: (b :: t).dropLast := by
      simp [List.dropLast]
    have hset : (a :: b :: t).dropLast.set 0 ((a :: b :: t).getD ((a :: b :: t).length - 1) default)
        = (a :: b :: t).getLast hne :: (b :: t).dropLast := by
      rw [hdrop, hlast, List.set_cons_zero]
    refine ((pySiftup_perm _ 0 ?_).cons a).trans ?_
    · rw [hset]
      simp
    · rw [hset]
      have hbt : (b :: t) ≠ [] := by simp
      have hgl : (a :: b :: t).getLast hne = (b :: t).getLast hbt := rfl
      rw [hgl]
      refine List.Perm.cons a ?_
      conv_rhs => rw [← List.dropLast_append_getLast hbt]
      exact (List.perm_append_singleton _ _).symm

/-! ## Leaf-content invariants of `make_heap` and `merge_nodes` -/

/-- All leaf characters stored across a heap, in heap-array order. -/
def heapLeaves (l : List HuffmanNode) : List Char :=
  l.flatMap HuffmanNode.leaves

theorem heapLeaves_perm {l1 l2 : List HuffmanNode} (p : List.Perm l1 l2) :
    List.Perm (heapLeaves l1) (heapLeaves l2) :=
  p.flatMap_right HuffmanNode.leaves

theorem heapLeaves_cons (x : HuffmanNode) (l : List HuffmanNode) :
    heapLeaves (x :: l) = x.leaves ++ heapLeaves l := by
  simp [heapLeaves]

theorem make_heap_leaves (frequency : List (Char × Nat)) :
    ∀ heap, List.Perm (heapLeaves (make_heap heap frequency))
      (heapLeaves heap ++ frequency.map Prod.fst) := by
  induction frequency with
  | nil =>
    intro heap
    simp [make_heap]
  | cons cf rest ih =>
    intro heap
    have hstep : make_heap heap (cf :: rest) =
        make_heap (heappush heap (HuffmanNode.leaf cf.1 cf.2)) rest := rfl
    rw [hstep]
    refine (ih _).trans ?_
    have hpush : List.Perm (heapLeaves (heappush heap (HuffmanNode.leaf cf.1 cf.2)))
        (heapLeaves (HuffmanNode.leaf cf.1 cf.2 :: heap)) :=
      heapLeaves_perm (heappush_perm _ _)
    refine (hpush.append_right _).trans ?_
    rw [heapLeaves_cons]
    simp only [HuffmanNode.leaves, List.map_cons, List.singleton_append, List.cons_append]
    exact List.perm_middle.symm

theorem make_heap_length (frequency : List (Char × Nat)) :
    ∀ heap, (make_heap heap frequency).length = heap.length + frequency.length := by
  induction frequency with
  | nil => intro heap; simp [make_heap]
  | cons cf rest ih =>
    intro heap
    have hstep : make_heap heap (cf :: rest) =
        make_heap (heappush heap (HuffmanNode.leaf cf.1 cf.2)) rest := rfl
    rw [hstep, ih, heappush_length]
    simp
    omega

theorem heappop_isSome (heap : List HuffmanNode) (h : heap ≠ []) :
    ∃ r rest, heappop heap = some (r, rest) := by
  cases hp : heappop heap with
  | none => exact absurd ((heappop_eq_none_iff heap).mp hp) h
  | some p =>
    obtain ⟨r, rest⟩ := p
    exact ⟨r, rest, rfl⟩

theorem merge_nodes_loop_leaves :
    ∀ (k : Nat) (heap : List HuffmanNode), heap.length ≤ k →
      List.Perm (heapLeaves (merge_nodes_loop heap)) (heapLeaves heap) := by
  intro k
  induction k with
  | zero =>
    intro heap hk
    rw [merge_nodes_loop, dif_neg (by omega)]
  | succ k ih =>
    intro heap hk
    rw [merge_nodes_loop]
    split
    · rename_i hlen
      split
      · exact List.Perm.refl _
      · rename_i node1 heapA h1
        split
        · exact List.Perm.refl _
        · rename_i node2 heapB h2
          have hA := heappop_length heap node1 heapA h1
          have hB := heappop_length heapA node2 heapB h2
          have hrec : (heappush heapB
              (HuffmanNode.internal (node1.freq + node2.freq) node1 node2)).length ≤ k := by
            rw [heappush_length]
            omega
          refine (ih _ hrec).trans ?_
          have hpush := heapLeaves_perm (heappush_perm heapB
            (HuffmanNode.internal (node1.freq + node2.freq) node1 node2))
          refine hpush.trans ?_
          rw [heapLeaves_cons]
          have hpA := heapLeaves_perm (heappop_perm heap node1 heapA h1)
          have hpB := heapLeaves_perm (heappop_perm heapA node2 heapB h2)
          rw [heapLeaves_cons] at hpA hpB
          simp only [HuffmanNode.leaves]
          rw [List.append_assoc]
          exact (hpB.append_left _).trans hpA
    · exact List.Perm.refl _

theorem merge_nodes_loop_length_one :
    ∀ (k : Nat) (heap : List HuffmanNode), heap.length ≤ k → 0 < heap.length →
      (merge_nodes_loop heap).length = 1 := by
  intro k
  induction k with
  | zero =>
    intro heap hk hpos
    omega
  | succ k ih =>
    intro heap hk hpos
    rw [merge_nodes_loop]
    split
    · rename_i hlen
      have hne : heap ≠ [] := by
        intro hc
        rw [hc] at hlen
        simp at hlen
      split
      · rename_i h1
        obtain ⟨r, rest, hr⟩ := heappop_isSome heap hne
        rw [h1] at hr
        cases hr
      · rename_i node1 heapA h1
        have hA := heappop_length heap node1 heapA h1
        have hAne : heapA ≠ [] := by
          intro hc
          rw [hc] at hA
          simp at hA
          omega
        split
        · rename_i h2
          obtain ⟨r, rest, hr⟩ := heappop_isSome heapA hAne
          rw [h2] at hr
          cases hr
        · rename_i node2 heapB h2
          have hB := heappop_length heapA node2 heapB h2
          refine ih _ ?_ ?_ <;> rw [heappush_length] <;> omega
    · rename_i hlen
      omega

/-! ## Padding lemmas -/

theorem padding_amount_of_lt (n : Nat) : padding_amount_of n < 8 := by
  unfold padding_amount_of
  have h8 : n % 8 < 8 := Nat.mod_lt n (by omega)
  split <;> omega

theorem padding_amount_of_eq_mod (n : Nat) :
    padding_amount_of n = (8 - n % 8) % 8 := by
  unfold padding_amount_of
  have h8 : n % 8 < 8 := Nat.mod_lt n (by omega)
  split <;> omega

theorem padding_amount_of_mod8 (n : Nat) : (8 + n + padding_amount_of n) % 8 = 0 := by
  unfold padding_amount_of
  have h8 : n % 8 < 8 := Nat.mod_lt n (by omega)
  split <;> omega

theorem pad_encoded_text_length (e : List Bool) :
    (pad_encoded_text e).length = 8 + e.length + padding_amount_of e.length := by
  simp only [pad_encoded_text, List.length_append, natToBits_length, List.length_replicate]

theorem pad_encoded_text_length_mod8 (e : List Bool) :
    (pad_encoded_text e).length % 8 = 0 := by
  rw [pad_encoded_text_length]
  exact padding_amount_of_mod8 e.length

theorem pad_encoded_text_take8 (e : List Bool) :
    (pad_encoded_text e).take 8 = natToBits 8 (padding_amount_of e.length) := by
  simp only [pad_encoded_text]
  rw [List.append_assoc]
  exact List.take_left' (natToBits_length 8 _)

theorem remove_padding_pad_encoded_text (e : List Bool) (h : e ≠ []) :
    remove_padding (pad_encoded_text e) = some e := by
  have hlen := pad_encoded_text_length e
  have hpa := padding_amount_of_lt e.length
  have hfirst : bitsToNat ((pad_encoded_text e).take 8) = padding_amount_of e.length := by
    rw [pad_encoded_text_take8]
    exact bitsToNat_natToBits 8 _ (by omega)
  have hrest : (if 0 < padding_amount_of e.length
      then ((pad_encoded_text e).take ((pad_encoded_text e).length -
        padding_amount_of e.length)).drop 8
      else (pad_encoded_text e).drop 8) = e := by
    by_cases hz : 0 < padding_amount_of e.length
    · rw [if_pos hz, hlen]
      have htake : (pad_encoded_text e).take (8 + e.length + padding_amount_of e.length -
          padding_amount_of e.length) = natToBits 8 (padding_amount_of e.length) ++ e := by
        simp only [pad_encoded_text]
        have hl : (natToBits 8 (padding_amount_of e.length) ++ e).length =
            8 + e.length + padding_amount_of e.length - padding_amount_of e.length := by
          simp [natToBits_length]
        exact List.take_left' hl
      rw [htake]
      exact List.drop_left' (natToBits_length 8 _)
    · rw [if_neg hz]
      have hz' : padding_amount_of e.length = 0 := by omega
      simp only [pad_encoded_text, hz', List.replicate_zero, List.append_nil]
      exact List.drop_left' (natToBits_length 8 _)
  rw [remove_padding]
  rw [if_neg (by omega)]
  simp only [hfirst]
  rw [if_neg (by omega)]
  rw [hrest, if_neg h]

theorem get_byte_array_pad (e : List Bool) :
    get_byte_array (pad_encoded_text e) = some (toBytes (pad_encoded_text e)) := by
  rw [get_byte_array, if_neg]
  intro hc
  have := pad_encoded_text_length e
  rw [hc] at this
  simp at this
  omega

/-! ## The code table generated from a tree -/

/-- The `(char, code)` pairs inserted by `make_codes_helper node current_code`,
in traversal order. -/
def codesOf : HuffmanNode → List Bool → List (Char × List Bool)
  | .leaf c _, cc => [(c, if cc = [] then [false] else cc)]
  | .internal _ l r, cc => codesOf l (cc ++ [false]) ++ codesOf r (cc ++ [true])

theorem insertAll_append {α β : Type} [DecidableEq α] (l ps qs : List (α × β)) :
    insertAll l (ps ++ qs) = insertAll (insertAll l ps) qs := by
  simp [insertAll, List.foldl_append]

theorem make_codes_helper_spec (node : HuffmanNode) :
    ∀ (st : HuffmanCoding) (cc : List Bool),
      make_codes_helper st node cc =
        { heap := st.heap,
          codes := insertAll st.codes (codesOf node cc),
          reverse_mapping := insertAll st.reverse_mapping
            ((codesOf node cc).map fun p => (p.2, p.1)) } := by
  induction node with
  | leaf c f =>
    intro st cc
    simp only [make_codes_helper, codesOf]
    by_cases hcc : cc = [] <;> simp [hcc, insertAll, dictInsert]
  | internal f l r ihl ihr =>
    intro st cc
    simp only [make_codes_helper, codesOf]
    rw [ihl, ihr, insertAll_append, List.map_append, insertAll_append]

theorem keys_codesOf (node : HuffmanNode) (cc : List Bool) :
    (codesOf node cc).map Prod.fst = node.leaves := by
  induction node generalizing cc with
  | leaf c f => simp [codesOf, HuffmanNode.leaves]
  | internal f l r ihl ihr => simp [codesOf, HuffmanNode.leaves, ihl, ihr]

theorem codesOf_ne_nil (node : HuffmanNode) (cc : List Bool) : codesOf node cc ≠ [] := by
  cases node with
  | leaf c f => simp [codesOf]
  | internal f l r =>
    simp only [codesOf]
    intro hc
    rcases List.append_eq_nil.mp hc with ⟨h1, _⟩
    exact codesOf_ne_nil l _ h1

theorem mem_codesOf_code_ne_nil {node : HuffmanNode} {cc : List Bool}
    {c : Char} {p : List Bool} (h : (c, p) ∈ codesOf node cc) : p ≠ [] := by
  induction node generalizing cc with
  | leaf c' f =>
    simp only [codesOf, List.mem_singleton, Prod.mk.injEq] at h
    rcases h with ⟨_, hp⟩
    subst hp
    split <;> simp_all
  | internal f l r ihl ihr =>
    simp only [codesOf, List.mem_append] at h
    rcases h with h | h
    · exact ihl h
    · exact ihr h

theorem mem_codesOf_prefix {node : HuffmanNode} {cc : List Bool}
    {c : Char} {p : List Bool} (hcc : cc ≠ []) (h : (c, p) ∈ codesOf node cc) :
    cc <+: p := by
  induction node generalizing cc with
  | leaf c' f =>
    simp only [codesOf, List.mem_singleton, Prod.mk.injEq] at h
    rcases h with ⟨_, hp⟩
    rw [if_neg hcc] at hp
    exact hp ▸ List.prefix_refl cc
  | internal f l r ihl ihr =>
    simp only [codesOf, List.mem_append] at h
    rcases h with h | h
    · exact (List.prefix_append cc [false]).trans (ihl (by simp) h)
    · exact (List.prefix_append cc [true]).trans (ihr (by simp) h)

theorem prefix_incomp {a b x y : List Bool} (ha : a <+: x) (hb : b <+: y)
    (hlen : a.length = b.length) (hab : a ≠ b) : ¬ x <+: y := by
  intro hxy
  have ha' : a <+: y := ha.trans hxy
  rw [List.prefix_iff_eq_take] at ha' hb
  exact hab (by rw [ha', hb, hlen])

/-- The codes generated from any single tree are pairwise prefix-incomparable. -/
theorem codesOf_pairwise_incomp (node : HuffmanNode) (cc : List Bool) :
    List.Pairwise (fun p q : Char × List Bool => ¬ p.2 <+: q.2 ∧ ¬ q.2 <+: p.2)
      (codesOf node cc) := by
  induction node generalizing cc with
  | leaf c f => simp [codesOf]
  | internal f l r ihl ihr =>
    simp only [codesOf]
    rw [List.pairwise_append]
    refine ⟨ihl _, ihr _, ?_⟩
    intro p hp q hq
    obtain ⟨c1, p1⟩ := p
    obtain ⟨c2, p2⟩ := q
    have hpl : (cc ++ [false]) <+: p1 := mem_codesOf_prefix (by simp) hp
    have hqr : (cc ++ [true]) <+: p2 := mem_codesOf_prefix (by simp) hq
    have hne : (cc ++ [false] : List Bool) ≠ cc ++ [true] := by simp
    have hlen : (cc ++ [false] : List Bool).length = (cc ++ [true] : List Bool).length := by
      simp
    exact ⟨prefix_incomp hpl hqr hlen hne, prefix_incomp hqr hpl hlen.symm (Ne.symm hne)⟩

/-- Codes of distinct leaves are distinct: the code values of a generated
table form a `Nodup` list. -/
theorem codesOf_values_nodup (node : HuffmanNode) (cc : List Bool) :
    ((codesOf node cc).map Prod.snd).Nodup := by
  rw [List.Nodup, List.pairwise_map]
  refine (codesOf_pairwise_incomp node cc).imp ?_
  intro p q h
  intro he
  exact h.1 (he ▸ List.prefix_refl p.2)

/-! ## Correctness of the decode state machine on prefix-free streams -/

/-- Pushing one complete code through the decoder: if the candidate prefix
read so far plus the upcoming bits form a code of the reverse mapping, and no
nonempty proper prefix of that code is a key, the decoder emits exactly the
mapped character and resets. -/
theorem decode_text_loop_push (rm : List (List Bool × Char)) (code : List Bool) (ch : Char)
    (hfind : dictFind rm code = some ch)
    (hpre : ∀ q, q ≠ [] → q <+: code → q ≠ code → dictFind rm q = none) :
    ∀ (q pfx rest acc), code = pfx ++ q → q ≠ [] →
      decode_text_loop rm (q ++ rest) pfx acc = decode_text_loop rm rest [] (acc ++ [ch]) := by
  intro q
  induction q with
  | nil => intro pfx rest acc _ hq; exact absurd rfl hq
  | cons b q' ih =>
    intro pfx rest acc hcode _
    show decode_text_loop rm (b :: (q' ++ rest)) pfx acc = _
    simp only [decode_text_loop]
    cases hq' : q' with
    | nil =>
      have hfull : pfx ++ [b] = code := by rw [hcode, hq']
      rw [hfull, hfind]
      simp
    | cons b2 q2 =>
      subst hq'
      have hplb : (pfx ++ [b]) <+: code := by
        rw [hcode]
        have h2 : pfx ++ (b :: b2 :: q2) = (pfx ++ [b]) ++ (b2 :: q2) := by simp
        rw [h2]
        exact List.prefix_append _ _
      have hne2 : pfx ++ [b] ≠ code := by
        intro hc
        have h1 : (pfx ++ [b]).length = code.length := by rw [hc]
        rw [hcode] at h1
        simp at h1
      have hnone : dictFind rm (pfx ++ [b]) = none :=
        hpre _ (by simp) hplb hne2
      rw [hnone]
      exact ih (pfx ++ [b]) rest acc (by rw [hcode]; simp) (by simp)

/-- Decoding the concatenation of valid codes yields exactly the encoded
characters with an empty leftover candidate. -/
theorem decode_text_loop_concat (rm : List (List Bool × Char)) (codeFn : Char → List Bool)
    (text : List Char)
    (hcond : ∀ c ∈ text, codeFn c ≠ [] ∧ dictFind rm (codeFn c) = some c ∧
      ∀ q, q ≠ [] → q <+: codeFn c → q ≠ codeFn c → dictFind rm q = none) :
    ∀ acc, decode_text_loop rm (text.flatMap codeFn) [] acc = (acc ++ text, []) := by
  induction text with
  | nil => intro acc; simp [decode_text_loop]
  | cons c rest ih =>
    intro acc
    obtain ⟨hne, hfind, hpre⟩ := hcond c (List.mem_cons_self c rest)
    have hflat : (c :: rest).flatMap codeFn = codeFn c ++ rest.flatMap codeFn := by
      simp
    rw [hflat, decode_text_loop_push rm (codeFn c) c hfind hpre (codeFn c) [] _ acc rfl hne,
      ih (fun d hd => hcond d (List.mem_cons_of_mem c hd)) (acc ++ [c])]
    simp

/-- `decode_text` inverts concatenation of codes. -/
theorem decode_text_concat (rm : List (List Bool × Char)) (codeFn : Char → List Bool)
    (text : List Char) (htext : text ≠ [])
    (hcond : ∀ c ∈ text, codeFn c ≠ [] ∧ dictFind rm (codeFn c) = some c ∧
      ∀ q, q ≠ [] → q <+: codeFn c → q ≠ codeFn c → dictFind rm q = none) :
    decode_text rm (text.flatMap codeFn) = some text := by
  have hflatne : text.flatMap codeFn ≠ [] := by
    cases text with
    | nil => exact absurd rfl htext
    | cons c rest =>
      obtain ⟨hne, _, _⟩ := hcond c (List.mem_cons_self c rest)
      simp only [List.flatMap_cons]
      intro hc
      exact hne (List.append_eq_nil.mp hc).1
  rw [decode_text, if_neg hflatne, decode_text_loop_concat rm codeFn text hcond []]
  simp

/-! ## The encoding loop -/

theorem encodeLoop_eq (codes : List (Char × List Bool)) (text : List Char)
    (h : ∀ c ∈ text, ∃ p, dictFind codes c = some p) :
    ∀ acc, encodeLoop codes text acc =
      some (acc ++ text.flatMap fun c => (dictFind codes c).getD []) := by
  induction text with
  | nil => intro acc; simp [encodeLoop]
  | cons c rest ih =>
    intro acc
    obtain ⟨p, hp⟩ := h c (List.mem_cons_self c rest)
    simp only [encodeLoop, hp]
    rw [ih (fun d hd => h d (List.mem_cons_of_mem c hd)) (acc ++ p)]
    simp [hp]

theorem get_encoded_text_eq (codes : List (Char × List Bool)) (text : List Char)
    (hcodes : codes ≠ []) (h : ∀ c ∈ text, ∃ p, dictFind codes c = some p) :
    get_encoded_text codes text =
      some (text.flatMap fun c => (dictFind codes c).getD []) := by
  rw [get_encoded_text, if_neg hcodes, encodeLoop_eq codes text h []]
  simp

/-! ## Frequency dictionary lemmas -/

theorem insertCount_ne_nil (l : List (Char × Nat)) (c : Char) : insertCount l c ≠ [] := by
  cases l with
  | nil => simp [insertCount]
  | cons p rest =>
    obtain ⟨d, n⟩ := p
    simp only [insertCount]
    split <;> simp

theorem make_frequency_dict_ne_nil (text : List Char) (h : text ≠ []) :
    make_frequency_dict text ≠ [] := by
  have aux : ∀ (t : List Char) (acc : List (Char × Nat)), acc ≠ [] →
      t.foldl insertCount acc ≠ [] := by
    intro t
    induction t with
    | nil => intro acc ha; exact ha
    | cons c rest ih =>
      intro acc ha
      exact ih (insertCount acc c) (insertCount_ne_nil acc c)
  cases text with
  | nil => exact absurd rfl h
  | cons c rest =>
    have : make_frequency_dict (c :: rest) = rest.foldl insertCount (insertCount [] c) := rfl
    rw [this]
    exact aux rest _ (insertCount_ne_nil [] c)

theorem mem_keys_insertCount (l : List (Char × Nat)) (c j : Char) :
    j ∈ (insertCount l c).map Prod.fst ↔ j ∈ l.map Prod.fst ∨ j = c := by
  induction l with
  | nil => simp [insertCount]
  | cons p rest ih =>
    obtain ⟨d, n⟩ := p
    simp only [insertCount]
    split
    · rename_i he
      subst he
      simp
      tauto
    · simp only [List.map_cons, List.mem_cons, ih]
      tauto

theorem nodup_keys_insertCount (l : List (Char × Nat)) (c : Char)
    (h : (l.map Prod.fst).Nodup) : ((insertCount l c).map Prod.fst).Nodup := by
  induction l with
  | nil => simp [insertCount]
  | cons p rest ih =>
    obtain ⟨d, n⟩ := p
    simp only [List.map_cons, List.nodup_cons] at h
    simp only [insertCount]
    split
    · simp only [List.map_cons, List.nodup_cons]
      exact h
    · rename_i he
      simp only [List.map_cons, List.nodup_cons]
      refine ⟨fun hmem => ?_, ih h.2⟩
      rcases (mem_keys_insertCount rest c d).mp hmem with h1 | h2
      · exact h.1 h1
      · exact he h2

theorem make_frequency_dict_keys_nodup (text : List Char) :
    ((make_frequency_dict text).map Prod.fst).Nodup := by
  have aux : ∀ (t : List Char) (acc : List (Char × Nat)), (acc.map Prod.fst).Nodup →
      ((t.foldl insertCount acc).map Prod.fst).Nodup := by
    intro t
    induction t with
    | nil => intro acc ha; exact ha
    | cons c rest ih =>
      intro acc ha
      exact ih _ (nodup_keys_insertCount acc c ha)
  exact aux text [] (by simp)

theorem mem_keys_make_frequency_dict {text : List Char} {c : Char} (h : c ∈ text) :
    c ∈ (make_frequency_dict text).map Prod.fst := by
  have aux : ∀ (t : List Char) (acc : List (Char × Nat)),
      c ∈ acc.map Prod.fst ∨ c ∈ t → c ∈ (t.foldl insertCount acc).map Prod.fst := by
    intro t
    induction t with
    | nil =>
      intro acc ha
      rcases ha with ha | ha
      · exact ha
      · simp at ha
    | cons d rest ih =>
      intro acc ha
      refine ih (insertCount acc d) ?_
      rcases ha with ha | ha
      · exact Or.inl ((mem_keys_insertCount acc d c).mpr (Or.inl ha))
      · rcases List.mem_cons.mp ha with he | hm
        · exact Or.inl ((mem_keys_insertCount acc d c).mpr (Or.inr he))
        · exact Or.inr hm
  exact aux text [] (Or.inr h)

/-! ## The tree produced by `merge_nodes` -/

/-- On a non-empty frequency table, heap construction plus merging yields a
single root whose leaves are a permutation of the table's keys. -/
theorem exists_merge_root_freq (freq : List (Char × Nat)) (hfne : freq ≠ []) :
    ∃ root, merge_nodes_loop (make_heap [] freq) = [root] ∧
      List.Perm root.leaves (freq.map Prod.fst) := by
  have hlen : (make_heap [] freq).length = freq.length := by
    rw [make_heap_length]
    simp
  have hpos : 0 < (make_heap [] freq).length := by
    rw [hlen]
    cases hf : freq with
    | nil => exact absurd hf hfne
    | cons a t => simp
  have hone := merge_nodes_loop_length_one (make_heap [] freq).length
    _ (le_refl _) hpos
  obtain ⟨root, hroot⟩ : ∃ root, merge_nodes_loop (make_heap [] freq) = [root] := by
    cases hm : merge_nodes_loop (make_heap [] freq) with
    | nil => rw [hm] at hone; simp at hone
    | cons a t =>
      rw [hm] at hone
      simp at hone
      exact ⟨a, by rw [hone]⟩
  refine ⟨root, hroot, ?_⟩
  have h1 := merge_nodes_loop_leaves (make_heap [] freq).length
    (make_heap [] freq) (le_refl _)
  rw [hroot] at h1
  have h2 := make_heap_leaves freq []
  have h3 : heapLeaves [root] = root.leaves := by simp [heapLeaves]
  have h4 : heapLeaves ([] : List HuffmanNode) = [] := by simp [heapLeaves]
  rw [h3] at h1
  rw [h4] at h2
  simp only [List.nil_append] at h2
  exact h1.trans h2

/-- Specialisation to the frequency table of a non-empty text. -/
theorem exists_merge_root (text : List Char) (htext : text ≠ []) :
    ∃ root, merge_nodes_loop (make_heap [] (make_frequency_dict text)) = [root] ∧
      List.Perm root.leaves ((make_frequency_dict text).map Prod.fst) :=
  exists_merge_root_freq _ (make_frequency_dict_ne_nil text htext)

/-! ## Decode conditions for a generated table -/

theorem keys_map_swap {α β : Type} (l : List (α × β)) :
    (l.map fun p => (p.2, p.1)).map Prod.fst = l.map Prod.snd := by
  rw [List.map_map]
  rfl

/-- For every leaf character, its generated code is non-empty, maps back to
the character through the reverse mapping, and no nonempty proper prefix of it
is a reverse-mapping key. -/
theorem codesOf_decode_conditions (root : HuffmanNode) (c : Char)
    (hc : c ∈ root.leaves) :
    ∃ p, dictFind (codesOf root []) c = some p ∧ p ≠ [] ∧
      dictFind ((codesOf root []).map fun q => (q.2, q.1)) p = some c ∧
      ∀ q, q ≠ [] → q <+: p → q ≠ p →
        dictFind ((codesOf root []).map fun q => (q.2, q.1)) q = none := by
  have hkeys : c ∈ (codesOf root []).map Prod.fst := by
    rw [keys_codesOf]
    exact hc
  obtain ⟨p, hp⟩ := dictFind_isSome_of_mem_keys hkeys
  have hmem : (c, p) ∈ codesOf root [] := dictFind_mem hp
  refine ⟨p, hp, mem_codesOf_code_ne_nil hmem, ?_, ?_⟩
  · exact dictFind_map_swap (codesOf_values_nodup root []) hmem
  · intro q hqne hqpre hqneq
    rw [dictFind_eq_none_iff, keys_map_swap]
    intro hqmem
    obtain ⟨pair, hpair, hpq⟩ := List.mem_map.mp hqmem
    obtain ⟨c', q'⟩ := pair
    simp only at hpq
    rw [← hpq] at hqpre hqneq
    have hsym : Symmetric (fun p q : Char × List Bool => ¬ p.2 <+: q.2 ∧ ¬ q.2 <+: p.2) := by
      intro a b h
      exact ⟨h.2, h.1⟩
    have hnepair : (c', q') ≠ (c, p) := by
      intro he
      cases he
      exact hqneq rfl
    have := ((codesOf_pairwise_incomp root []).forall hsym hpair hmem hnepair).1
    exact this hqpre

/-! ## Evaluating `compress` -/

/-- Evaluation of a `compress` call on an instance whose heap is empty (the
state after `__init__` or after any completed `compress`): the heap stages
produce the merge root, and the returned artifact, table and state are as
computed from it. -/
theorem compress_eq_of_root (st : HuffmanCoding) (hheap : st.heap = [])
    (text : List Char) (htext : text ≠ []) (root : HuffmanNode)
    (hroot : merge_nodes_loop (make_heap [] (make_frequency_dict text)) = [root])
    (hfound : ∀ c ∈ text, ∃ p, dictFind (insertAll st.codes (codesOf root [])) c = some p) :
    compress st text =
      some ((toBytes (pad_encoded_text (text.flatMap fun c =>
              (dictFind (insertAll st.codes (codesOf root [])) c).getD [])),
             insertAll st.codes (codesOf root [])),
            HuffmanCoding.mk [] (insertAll st.codes (codesOf root []))
              (insertAll st.reverse_mapping ((codesOf root []).map fun p => (p.2, p.1)))) := by
  have hstage : make_codes (merge_nodes { st with heap := make_heap st.heap (make_frequency_dict text) }) = HuffmanCoding.mk [] (insertAll st.codes (codesOf root [])) (insertAll st.reverse_mapping ((codesOf root []).map fun p => (p.2, p.1))) := by
    rw [merge_nodes]
    simp only [hheap]
    rw [make_codes]
    simp only [hroot]
    have hpop : heappop [root] = some (root, []) := rfl
    rw [hpop]
    dsimp only
    rw [make_codes_helper_spec]
  have hcne : insertAll st.codes (codesOf root []) ≠ [] :=
    insertAll_ne_nil _ _ (Or.inr (codesOf_ne_nil root []))
  have henc := get_encoded_text_eq (insertAll st.codes (codesOf root [])) text hcne hfound
  rw [compress, if_neg htext]
  dsimp only
  rw [hstage]
  dsimp only
  rw [henc]
  dsimp only
  rw [get_byte_array_pad]

/-! ## Evaluating `decompress` on a packed artifact -/

theorem decompress_toBytes_pad (st' : HuffmanCoding) (encoded : List Bool)
    (he : encoded ≠ []) (t : List Char)
    (hdec : decode_text st'.reverse_mapping encoded = some t) :
    decompress st' (toBytes (pad_encoded_text encoded)) = t := by
  rw [decompress]
  have hbits : bytesToBits (toBytes (pad_encoded_text encoded)) = pad_encoded_text encoded :=
    bytesToBits_toBytes _ (pad_encoded_text_length_mod8 encoded)
  simp only [hbits, remove_padding_pad_encoded_text encoded he, hdec]

/-! ## The compress/decompress round trip on a fresh instance -/

/-- Core round-trip lemma: compressing a non-empty text on a fresh instance
succeeds, the returned table is exactly the table generated from the merge
root, and decompressing the artifact with the updated instance restores the
text. -/
theorem compress_roundtrip_core (text : List Char) (htext : text ≠ []) :
    ∃ root,
      merge_nodes_loop (make_heap [] (make_frequency_dict text)) = [root] ∧
      ∃ bytes st',
        compress HuffmanCoding.init text = some ((bytes, codesOf root []), st') ∧
        st' = HuffmanCoding.mk [] (codesOf root [])
          ((codesOf root []).map fun p => (p.2, p.1)) ∧
        decompress st' bytes = text := by
  obtain ⟨root, hroot, hperm⟩ := exists_merge_root text htext
  have hnd : root.leaves.Nodup := hperm.symm.nodup (make_frequency_dict_keys_nodup text)
  have hkeysnd : ((codesOf root []).map Prod.fst).Nodup := by
    rw [keys_codesOf]
    exact hnd
  have hins : insertAll HuffmanCoding.init.codes (codesOf root []) = codesOf root [] :=
    insertAll_nil_left _ hkeysnd
  have hinsrm : insertAll HuffmanCoding.init.reverse_mapping
      ((codesOf root []).map fun p => (p.2, p.1)) = (codesOf root []).map fun p => (p.2, p.1) := by
    refine insertAll_nil_left _ ?_
    rw [keys_map_swap]
    exact codesOf_values_nodup root []
  have hmemleaves : ∀ c ∈ text, c ∈ root.leaves := by
    intro c hc
    exact hperm.mem_iff.mpr (mem_keys_make_frequency_dict hc)
  have hfound : ∀ c ∈ text, ∃ p,
      dictFind (insertAll HuffmanCoding.init.codes (codesOf root [])) c = some p := by
    intro c hc
    obtain ⟨p, hp, _⟩ := codesOf_decode_conditions root c (hmemleaves c hc)
    exact ⟨p, by rw [hins]; exact hp⟩
  have hcompress := compress_eq_of_root HuffmanCoding.init rfl text htext root hroot hfound
  rw [hins, hinsrm] at hcompress
  refine ⟨root, hroot, _, _, hcompress, rfl, ?_⟩
  set codeFn : Char → List Bool := fun c => (dictFind (codesOf root []) c).getD [] with hcodeFn
  have hcond : ∀ c ∈ text, codeFn c ≠ [] ∧
      dictFind ((codesOf root []).map fun p => (p.2, p.1)) (codeFn c) = some c ∧
      ∀ q, q ≠ [] → q <+: codeFn c → q ≠ codeFn c →
        dictFind ((codesOf root []).map fun p => (p.2, p.1)) q = none := by
    intro c hc
    obtain ⟨p, hp, hpne, hprev, hpref⟩ := codesOf_decode_conditions root c (hmemleaves c hc)
    have hfc : codeFn c = p := by rw [hcodeFn]; simp [hp]
    rw [hfc]
    exact ⟨hpne, hprev, hpref⟩
  have hence : text.flatMap codeFn ≠ [] := by
    cases text with
    | nil => exact absurd rfl htext
    | cons c rest =>
      obtain ⟨hne, _, _⟩ := hcond c (List.mem_cons_self c rest)
      simp only [List.flatMap_cons]
      intro hc
      exact hne (List.append_eq_nil.mp hc).1
  have hdec : decode_text ((codesOf root []).map fun p => (p.2, p.1))
      (text.flatMap codeFn) = some text :=
    decode_text_concat _ codeFn text htext hcond
  exact decompress_toBytes_pad _ (text.flatMap codeFn) hence text hdec

/-! ## The table generated by `make_heap`; `merge_nodes`; `make_codes` on a
fresh instance -/

/-- The code table obtained by running `make_heap(freq)`, `merge_nodes()` and
`make_codes()` on a freshly constructed `HuffmanCoding` instance. -/
def generated_code_table (freq : List (Char × Nat)) : List (Char × List Bool) :=
  (make_codes (merge_nodes
    { HuffmanCoding.init with heap := make_heap HuffmanCoding.init.heap freq })).codes

theorem generated_code_table_eq (freq : List (Char × Nat)) (hne : freq ≠ [])
    (hnd : (freq.map Prod.fst).Nodup) :
    ∃ root, merge_nodes_loop (make_heap [] freq) = [root] ∧
      List.Perm root.leaves (freq.map Prod.fst) ∧
      generated_code_table freq = codesOf root [] := by
  obtain ⟨root, hroot, hperm⟩ := exists_merge_root_freq freq hne
  refine ⟨root, hroot, hperm, ?_⟩
  have hnd' : root.leaves.Nodup := hperm.symm.nodup hnd
  rw [generated_code_table, merge_nodes]
  simp only [HuffmanCoding.init]
  rw [hroot, make_codes]
  have hpop : heappop [root] = some (root, []) := rfl
  rw [hpop]
  dsimp only
  rw [make_codes_helper_spec]
  dsimp only
  refine insertAll_nil_left _ ?_
  rw [keys_codesOf]
  exact hnd'

/-! ## Failure paths of `remove_padding`, `decode_text` and `decompress` -/

/-- The payload left after deleting the 8-bit header and the declared number
of trailing padding bits (the slice `bit_string[8:-p]`, taken
unconditionally: for `p = 0` it coincides with `bit_string[8:]`). -/
def strippedPayload (bits : List Bool) : List Bool :=
  (bits.take (bits.length - bitsToNat (bits.take 8))).drop 8

theorem remove_padding_none_of_short {bits : List Bool} (h : bits.length < 8) :
    remove_padding bits = none := by
  simp only [remove_padding]
  rw [if_pos h]

theorem remove_padding_none_of_bad_padding {bits : List Bool}
    (h : 7 < bitsToNat (bits.take 8)) : remove_padding bits = none := by
  simp only [remove_padding]
  by_cases hlen : bits.length < 8
  · rw [if_pos hlen]
  · rw [if_neg hlen]
    rw [if_pos (Or.inl h)]

theorem remove_padding_none_of_insufficient {bits : List Bool}
    (h : 0 < bitsToNat (bits.take 8) ∧ bits.length < 8 + bitsToNat (bits.take 8)) :
    remove_padding bits = none := by
  simp only [remove_padding]
  by_cases hlen : bits.length < 8
  · rw [if_pos hlen]
  · rw [if_neg hlen]
    rw [if_pos (Or.inr h)]

theorem remove_padding_none_of_empty_payload {bits : List Bool}
    (h : strippedPayload bits = []) : remove_padding bits = none := by
  simp only [remove_padding]
  by_cases hlen : bits.length < 8
  · rw [if_pos hlen]
  · rw [if_neg hlen]
    by_cases hbad : 7 < bitsToNat (bits.take 8) ∨
        (0 < bitsToNat (bits.take 8) ∧ bits.length < 8 + bitsToNat (bits.take 8))
    · rw [if_pos hbad]
    · rw [if_neg hbad]
      by_cases hz : 0 < bitsToNat (bits.take 8)
      · rw [if_pos hz]
        rw [strippedPayload] at h
        rw [if_pos h]
      · rw [if_neg hz]
        have hz' : bitsToNat (bits.take 8) = 0 := by omega
        rw [strippedPayload, hz', Nat.sub_zero, List.take_length] at h
        rw [if_pos h]

theorem remove_padding_some_ne_nil {bits p : List Bool}
    (h : remove_padding bits = some p) : p ≠ [] := by
  simp only [remove_padding] at h
  by_cases h1 : bits.length < 8
  · rw [if_pos h1] at h
    cases h
  · rw [if_neg h1] at h
    by_cases h2 : 7 < bitsToNat (bits.take 8) ∨
        (0 < bitsToNat (bits.take 8) ∧ bits.length < 8 + bitsToNat (bits.take 8))
    · rw [if_pos h2] at h
      cases h
    · rw [if_neg h2] at h
      by_cases h3 : (if 0 < bitsToNat (bits.take 8)
          then (bits.take (bits.length - bitsToNat (bits.take 8))).drop 8
          else bits.drop 8) = []
      · rw [if_pos h3] at h
        cases h
      · rw [if_neg h3] at h
        cases h
        exact h3

theorem decompress_eq_nil_of_remove_padding_none (st : HuffmanCoding)
    (B : List Nat) (h : remove_padding (bytesToBits B) = none) :
    decompress st B = [] := by
  rw [decompress]
  simp only [h]

theorem decompress_eq_nil_of_leftover (st : HuffmanCoding) (B : List Nat)
    (payload : List Bool) (h : remove_padding (bytesToBits B) = some payload)
    (hleft : (decode_text_loop st.reverse_mapping payload [] []).2 ≠ []) :
    decompress st B = [] := by
  rw [decompress]
  simp only [h]
  have hdec : decode_text st.reverse_mapping payload = none := by
    rw [decode_text, if_neg (remove_padding_some_ne_nil h)]
    dsimp only
    rw [if_neg hleft]
  simp only [hdec]

/-! ## Singleton-alphabet computations -/

theorem make_frequency_dict_replicate (a : Char) (n : Nat) (h : 1 ≤ n) :
    make_frequency_dict (List.replicate n a) = [(a, n)] := by
  have aux : ∀ (m j : Nat), (List.replicate m a).foldl insertCount [(a, j)] = [(a, j + m)] := by
    intro m
    induction m with
    | zero => intro j; simp
    | succ m ih =>
      intro j
      rw [List.replicate_succ, List.foldl_cons]
      have hstep : insertCount [(a, j)] a = [(a, j + 1)] := by simp [insertCount]
      rw [hstep, ih]
      have : j + 1 + m = j + (m + 1) := by omega
      rw [this]
  cases n with
  | zero => omega
  | succ m =>
    rw [List.replicate_succ]
    have h0 : insertCount [] a = [(a, 1)] := rfl
    rw [make_frequency_dict, List.foldl_cons, h0, aux]
    have : 1 + m = m + 1 := by omega
    rw [this]

theorem siftdownLoop_start (heap : List HuffmanNode) (p : Nat) (ni : HuffmanNode) :
    siftdownLoop heap p p ni = (heap, p) := by
  rw [siftdownLoop, dif_neg (lt_irrefl p)]

theorem heappush_nil (x : HuffmanNode) : heappush [] x = [x] := by
  show pySiftdown [x] 0 0 = [x]
  simp only [pySiftdown, siftdownLoop_start]
  rfl

theorem merge_nodes_loop_singleton (x : HuffmanNode) : merge_nodes_loop [x] = [x] := by
  rw [merge_nodes_loop, dif_neg (by simp)]

/-! ## Idempotence of re-inserting a generated table -/

theorem insertAll_self {α β : Type} [DecidableEq α] (l : List (α × β))
    (hnd : (l.map Prod.fst).Nodup) : insertAll l l = l := by
  refine insertAll_of_forall_find l l ?_
  intro p hp
  obtain ⟨k, v⟩ := p
  exact dictFind_of_mem_nodup hnd hp

/-! ## Compress evaluated on a fresh instance, and on a reused instance -/

/-- First `compress` call on a fresh instance, with the artifact bytes, table
and final state all written out explicitly. -/
theorem compress_fresh_state (text : List Char) (htext : text ≠ []) :
    ∃ root,
      merge_nodes_loop (make_heap [] (make_frequency_dict text)) = [root] ∧
      List.Perm root.leaves ((make_frequency_dict text).map Prod.fst) ∧
      ((codesOf root []).map Prod.fst).Nodup ∧
      compress HuffmanCoding.init text =
        some ((toBytes (pad_encoded_text (text.flatMap fun c =>
            (dictFind (codesOf root []) c).getD [])), codesOf root []),
          HuffmanCoding.mk [] (codesOf root [])
            ((codesOf root []).map fun p => (p.2, p.1))) := by
  obtain ⟨root, hroot, hperm⟩ := exists_merge_root text htext
  have hndk : ((codesOf root []).map Prod.fst).Nodup := by
    rw [keys_codesOf]
    exact hperm.symm.nodup (make_frequency_dict_keys_nodup text)
  have hndswap : (((codesOf root []).map fun p => (p.2, p.1)).map Prod.fst).Nodup := by
    rw [keys_map_swap]
    exact codesOf_values_nodup root []
  have hins1 : insertAll HuffmanCoding.init.codes (codesOf root []) = codesOf root [] :=
    insertAll_nil_left _ hndk
  have hinsrm1 : insertAll HuffmanCoding.init.reverse_mapping
      ((codesOf root []).map fun p => (p.2, p.1)) =
      (codesOf root []).map fun p => (p.2, p.1) :=
    insertAll_nil_left _ hndswap
  have hfound1 : ∀ c ∈ text, ∃ p,
      dictFind (insertAll HuffmanCoding.init.codes (codesOf root [])) c = some p := by
    intro c hc
    rw [hins1]
    refine dictFind_isSome_of_mem_keys ?_
    rw [keys_codesOf]
    exact hperm.mem_iff.mpr (mem_keys_make_frequency_dict hc)
  have hc1 := compress_eq_of_root HuffmanCoding.init rfl text htext root hroot hfound1
  rw [hins1, hinsrm1] at hc1
  exact ⟨root, hroot, hperm, hndk, hc1⟩

/-- A later `compress` call on the instance state left by an earlier one: the
heap is rebuilt from scratch, but the new code table is the dict-update of
the old one with the fresh codes. -/
theorem compress_on_state (T1 : List (Char × List Bool)) (R1 : List (List Bool × Char))
    (t2 : List Char) (h2 : t2 ≠ []) :
    ∃ root2,
      merge_nodes_loop (make_heap [] (make_frequency_dict t2)) = [root2] ∧
      List.Perm root2.leaves ((make_frequency_dict t2).map Prod.fst) ∧
      compress (HuffmanCoding.mk [] T1 R1) t2 =
        some ((toBytes (pad_encoded_text (t2.flatMap fun c =>
            (dictFind (insertAll T1 (codesOf root2 [])) c).getD [])),
          insertAll T1 (codesOf root2 [])),
          HuffmanCoding.mk [] (insertAll T1 (codesOf root2 []))
            (insertAll R1 ((codesOf root2 []).map fun p => (p.2, p.1)))) := by
  obtain ⟨root2, hroot2, hperm2⟩ := exists_merge_root t2 h2
  have hfound2 : ∀ c ∈ t2, ∃ p,
      dictFind (insertAll (HuffmanCoding.mk [] T1 R1).codes (codesOf root2 [])) c = some p := by
    intro c hc
    refine dictFind_isSome_of_mem_keys ?_
    refine (mem_keys_insertAll _ _ _).mpr (Or.inr ?_)
    rw [keys_codesOf]
    exact hperm2.mem_iff.mpr (mem_keys_make_frequency_dict hc)
  have hc2 := compress_eq_of_root (HuffmanCoding.mk [] T1 R1) rfl t2 h2 root2 hroot2 hfound2
  exact ⟨root2, hroot2, hperm2, hc2⟩

/-! # Claim theorems -/

/-- C1: Round-trip law: compressing any non-empty symbol sequence on a fresh
`HuffmanCoding` instance and then decompressing the resulting byte artifact
with the same instance (whose reverse mapping was built by that compress
call) returns exactly the original sequence. -/
theorem claim_roundtrip (S : List Char) (h : S ≠ []) :
    ∃ bytes table st', compress HuffmanCoding.init S = some ((bytes, table), st') ∧
      decompress st' bytes = S := by
  obtain ⟨root, _, bytes, st', hc, _, hd⟩ := compress_roundtrip_core S h
  exact ⟨bytes, codesOf root [], st', hc, hd⟩

theorem claim_roundtrip_witness :
    ∃ bytes table st',
      compress HuffmanCoding.init ['a', 'b', 'a'] = some ((bytes, table), st') ∧
      decompress st' bytes = ['a', 'b', 'a'] :=
  claim_roundtrip ['a', 'b', 'a'] (by decide)

/-- C2: Prefix-free law: in every code table produced by `make_heap`,
`merge_nodes` and `make_codes` on a fresh instance from a non-empty frequency
table, the codes are pairwise prefix-incomparable; in particular no symbol's
code is a prefix of a different symbol's code. -/
theorem claim_prefix_free (freq : List (Char × Nat)) (hne : freq ≠ [])
    (hnd : (freq.map Prod.fst).Nodup) :
    List.Pairwise (fun p q : Char × List Bool => ¬ p.2 <+: q.2 ∧ ¬ q.2 <+: p.2)
      (generated_code_table freq) ∧
    ∀ c1 c2 p1 p2, dictFind (generated_code_table freq) c1 = some p1 →
      dictFind (generated_code_table freq) c2 = some p2 → c1 ≠ c2 → ¬ p1 <+: p2 := by
  obtain ⟨root, _, _, htab⟩ := generated_code_table_eq freq hne hnd
  rw [htab]
  refine ⟨codesOf_pairwise_incomp root [], ?_⟩
  intro c1 c2 p1 p2 h1 h2 hcc
  have hm1 := dictFind_mem h1
  have hm2 := dictFind_mem h2
  have hsym : Symmetric (fun p q : Char × List Bool => ¬ p.2 <+: q.2 ∧ ¬ q.2 <+: p.2) := by
    intro a b hab
    exact ⟨hab.2, hab.1⟩
  have hne2 : (c1, p1) ≠ (c2, p2) := by
    intro he
    cases he
    exact hcc rfl
  exact ((codesOf_pairwise_incomp root []).forall hsym hm1 hm2 hne2).1

theorem claim_prefix_free_witness :
    List.Pairwise (fun p q : Char × List Bool => ¬ p.2 <+: q.2 ∧ ¬ q.2 <+: p.2)
      (generated_code_table [('a', 1), ('b', 2)]) ∧
    ∀ c1 c2 p1 p2, dictFind (generated_code_table [('a', 1), ('b', 2)]) c1 = some p1 →
      dictFind (generated_code_table [('a', 1), ('b', 2)]) c2 = some p2 → c1 ≠ c2 →
      ¬ p1 <+: p2 :=
  claim_prefix_free [('a', 1), ('b', 2)] (by decide) (by decide)

/-- C3 (counterexample): the claim fails for the empty bit string: padding it
gives a well-formed (length 8) header-only stream, but `remove_padding`
rejects the empty payload instead of reproducing `""`. -/
theorem claim_padding_cex :
    ¬ ((pad_encoded_text ([] : List Bool)).length % 8 = 0 ∧
        remove_padding (pad_encoded_text ([] : List Bool)) = some []) := by
  decide

/-- C3 (amended): for every NON-EMPTY bit string B, `pad_encoded_text B` has
length a multiple of 8 and `remove_padding` applied to it reproduces B
exactly. -/
theorem claim_padding_roundtrip (B : List Bool) (h : B ≠ []) :
    (pad_encoded_text B).length % 8 = 0 ∧
      remove_padding (pad_encoded_text B) = some B :=
  ⟨pad_encoded_text_length_mod8 B, remove_padding_pad_encoded_text B h⟩

theorem claim_padding_roundtrip_witness :
    (pad_encoded_text [true]).length % 8 = 0 ∧
      remove_padding (pad_encoded_text [true]) = some [true] :=
  claim_padding_roundtrip [true] (by decide)

/-- C4: Corruption rejection: when the declared padding count (the first 8
bits read as an integer) exceeds 7, or the payload after stripping the header
and the declared padding is empty, or the final leftover accumulated bits
never matched a code of the reverse mapping, decoding fails for the entire
stream: `decompress` returns the empty failure result, never partial text. -/
theorem claim_corruption_rejection (st : HuffmanCoding) (B : List Nat)
    (hB : ∀ b ∈ B, b < 256)
    (h : 7 < bitsToNat ((bytesToBits B).take 8)
       ∨ strippedPayload (bytesToBits B) = []
       ∨ ∃ payload, remove_padding (bytesToBits B) = some payload ∧
           (decode_text_loop st.reverse_mapping payload [] []).2 ≠ []) :
    decompress st B = [] := by
  rcases h with h | h | ⟨payload, hp, hleft⟩
  · exact decompress_eq_nil_of_remove_padding_none st B (remove_padding_none_of_bad_padding h)
  · exact decompress_eq_nil_of_remove_padding_none st B (remove_padding_none_of_empty_payload h)
  · exact decompress_eq_nil_of_leftover st B payload hp hleft

theorem claim_corruption_rejection_witness :
    decompress HuffmanCoding.init [255] = [] :=
  claim_corruption_rejection HuffmanCoding.init [255] (by decide) (Or.inl (by decide))

/-- C5: Precondition rejection: `compress` on empty text raises immediately;
`get_byte_array` on an empty bit string raises immediately; `decompress` on
an empty artifact fails internally (`remove_padding` rejects the too-short
bit string) and produces no partial output, only the empty failure result. -/
theorem claim_precondition_rejection (st : HuffmanCoding) :
    compress st [] = none ∧ get_byte_array ([] : List Bool) = none ∧
      remove_padding (bytesToBits []) = none ∧ decompress st [] = [] := by
  refine ⟨?_, rfl, rfl, ?_⟩
  · rw [compress, if_pos rfl]
  · exact decompress_eq_nil_of_remove_padding_none st [] rfl

/-- C6: Artifact length guarantee: for every non-empty raw encoded bit
string, the packed artifact satisfies
`len(artifact) * 8 = 8 + len(raw) + padding` with
`padding = (8 - len(raw) mod 8) mod 8`, a total that is a multiple of 8 and
at least 8. -/
theorem claim_artifact_length (raw : List Bool) (h : raw ≠ []) :
    ∃ bytes, get_byte_array (pad_encoded_text raw) = some bytes ∧
      bytes.length * 8 = 8 + raw.length + (8 - raw.length % 8) % 8 ∧
      (8 + raw.length + (8 - raw.length % 8) % 8) % 8 = 0 ∧
      8 ≤ 8 + raw.length + (8 - raw.length % 8) % 8 := by
  refine ⟨toBytes (pad_encoded_text raw), get_byte_array_pad raw, ?_, ?_, by omega⟩
  · rw [toBytes_length_mul _ (pad_encoded_text_length_mod8 raw), pad_encoded_text_length,
      padding_amount_of_eq_mod]
  · rw [← padding_amount_of_eq_mod]
    exact padding_amount_of_mod8 raw.length

theorem claim_artifact_length_witness :
    ∃ bytes, get_byte_array (pad_encoded_text [true]) = some bytes ∧
      bytes.length * 8 = 8 + [true].length + (8 - [true].length % 8) % 8 ∧
      (8 + [true].length + (8 - [true].length % 8) % 8) % 8 = 0 ∧
      8 ≤ 8 + [true].length + (8 - [true].length % 8) % 8 :=
  claim_artifact_length [true] (by decide)

/-- C7: Singleton alphabet: compressing a non-empty text of one repeated
symbol `a` yields exactly the code table `[(a, "0")]` (the fixed one-bit
convention for a root that is itself a leaf), and decompressing the artifact
with the updated instance reproduces the text. -/
theorem claim_singleton_alphabet (a : Char) (n : Nat) (h : 1 ≤ n) :
    ∃ bytes st',
      compress HuffmanCoding.init (List.replicate n a) =
        some ((bytes, [(a, [false])]), st') ∧
      decompress st' bytes = List.replicate n a := by
  have hne : List.replicate n a ≠ [] := by
    cases n with
    | zero => omega
    | succ m => simp
  obtain ⟨root, hroot, bytes, st', hc, _, hd⟩ := compress_roundtrip_core _ hne
  have hchain : merge_nodes_loop (make_heap [] (make_frequency_dict (List.replicate n a))) =
      [HuffmanNode.leaf a n] := by
    rw [make_frequency_dict_replicate a n h]
    have hmh : make_heap [] [(a, n)] = [HuffmanNode.leaf a n] := heappush_nil _
    rw [hmh, merge_nodes_loop_singleton]
  have h2 : [root] = [HuffmanNode.leaf a n] := hroot.symm.trans hchain
  have hrooteq : root = HuffmanNode.leaf a n := by injection h2
  rw [hrooteq] at hc
  have htab : codesOf (HuffmanNode.leaf a n) [] = [(a, [false])] := rfl
  rw [htab] at hc
  exact ⟨bytes, st', hc, hd⟩

theorem claim_singleton_alphabet_witness :
    ∃ bytes st',
      compress HuffmanCoding.init (List.replicate 6 'a') =
        some ((bytes, [('a', [false])]), st') ∧
      decompress st' bytes = List.replicate 6 'a' :=
  claim_singleton_alphabet 'a' 6 (by decide)

/-- C8: Tie-break determinism: compressing the same non-empty text twice —
the second call running on the very instance state the first call left —
returns the identical code table and identical artifact bytes (and leaves an
identical state), even when symbols have equal frequencies. -/
theorem claim_tiebreak_deterministic (text : List Char) (htext : text ≠ []) :
    ∃ r st1 st2, compress HuffmanCoding.init text = some (r, st1) ∧
      compress st1 text = some (r, st2) ∧ st2 = st1 := by
  obtain ⟨root, hroot, hperm, hndk, hc1⟩ := compress_fresh_state text htext
  obtain ⟨root2, hroot2, _, hc2⟩ := compress_on_state (codesOf root [])
    ((codesOf root []).map fun p => (p.2, p.1)) text htext
  have hre : root2 = root := by
    have h12 : [root2] = [root] := hroot2.symm.trans hroot
    injection h12
  rw [hre] at hc2
  have hndswap : (((codesOf root []).map fun p => (p.2, p.1)).map Prod.fst).Nodup := by
    rw [keys_map_swap]
    exact codesOf_values_nodup root []
  rw [insertAll_self _ hndk, insertAll_self _ hndswap] at hc2
  exact ⟨_, _, _, hc1, hc2, rfl⟩

theorem claim_tiebreak_deterministic_witness :
    ∃ r st1 st2, compress HuffmanCoding.init ['x', 'y', 'x'] = some (r, st1) ∧
      compress st1 ['x', 'y', 'x'] = some (r, st2) ∧ st2 = st1 :=
  claim_tiebreak_deterministic ['x', 'y', 'x'] (by decide)

/-- C9 (counterexample): running compress("ab") and then compress("c") on
the same instance, the second call's returned code table still contains an
entry for 'a' — a symbol occurring only in the first text — so the claim
that the second table has no entries for t1-only symbols is false on the
code: the codes dict is never cleared between calls. -/
theorem claim_rebuild_cex :
    ∃ r1 st1 r2 st2,
      compress HuffmanCoding.init ['a', 'b'] = some (r1, st1) ∧
      compress st1 ['c'] = some (r2, st2) ∧
      dictFind r2.2 'a' ≠ none := by
  obtain ⟨root1, hroot1, hperm1, hndk1, hc1⟩ := compress_fresh_state ['a', 'b'] (by decide)
  obtain ⟨root2, hroot2, hperm2, hc2⟩ := compress_on_state (codesOf root1 [])
    ((codesOf root1 []).map fun p => (p.2, p.1)) ['c'] (by decide)
  refine ⟨_, _, _, _, hc1, hc2, ?_⟩
  intro hnone
  refine (dictFind_eq_none_iff _ _).mp hnone ?_
  refine (mem_keys_insertAll _ _ _).mpr (Or.inl ?_)
  rw [keys_codesOf]
  refine hperm1.mem_iff.mpr (mem_keys_make_frequency_dict ?_)
  simp

/-- C9 (amended): for non-empty texts t1 and t2, calling compress(t1) then
compress(t2) on the same instance succeeds, and the second call's code table
has an entry for every distinct symbol of t2 with no duplicate keys — but
entries for symbols occurring only in t1 persist: every key of the table left
by the first call is still a key of the second call's table (the codes dict
is updated, not rebuilt from scratch). -/
theorem claim_rebuild_amended (t1 t2 : List Char) (h1 : t1 ≠ []) (h2 : t2 ≠ []) :
    ∃ r1 st1 r2 st2,
      compress HuffmanCoding.init t1 = some (r1, st1) ∧
      compress st1 t2 = some (r2, st2) ∧
      (∀ c ∈ t2, dictFind r2.2 c ≠ none) ∧
      (r2.2.map Prod.fst).Nodup ∧
      ∀ c, dictFind st1.codes c ≠ none → dictFind r2.2 c ≠ none := by
  obtain ⟨root1, hroot1, hperm1, hndk1, hc1⟩ := compress_fresh_state t1 h1
  obtain ⟨root2, hroot2, hperm2, hc2⟩ := compress_on_state (codesOf root1 [])
    ((codesOf root1 []).map fun p => (p.2, p.1)) t2 h2
  refine ⟨_, _, _, _, hc1, hc2, ?_, ?_, ?_⟩
  · intro c hc hnone
    refine (dictFind_eq_none_iff _ _).mp hnone ?_
    refine (mem_keys_insertAll _ _ _).mpr (Or.inr ?_)
    rw [keys_codesOf]
    exact hperm2.mem_iff.mpr (mem_keys_make_frequency_dict hc)
  · exact nodup_keys_insertAll _ _ hndk1
  · intro c hfind hnone
    refine (dictFind_eq_none_iff _ _).mp hnone ?_
    refine (mem_keys_insertAll _ _ _).mpr (Or.inl ?_)
    by_contra hmem
    exact hfind ((dictFind_eq_none_iff _ _).mpr hmem)

theorem claim_rebuild_amended_witness :
    ∃ r1 st1 r2 st2,
      compress HuffmanCoding.init ['p', 'q'] = some (r1, st1) ∧
      compress st1 ['r'] = some (r2, st2) ∧
      (∀ c ∈ ['r'], dictFind r2.2 c ≠ none) ∧
      (r2.2.map Prod.fst).Nodup ∧
      ∀ c, dictFind st1.codes c ≠ none → dictFind r2.2 c ≠ none :=
  claim_rebuild_amended ['p', 'q'] ['r'] (by decide) (by decide)

/-- C10: `decompress` is total and uses the empty string as its only failure
sentinel: on every byte sequence whose expanded bit string fails validation
(shorter than 8 bits including the empty sequence, declared padding count
above 7, insufficient length for the declared padding, empty payload after
stripping, or leftover unmatched bits at the end of decoding) it raises no
exception and returns the empty string. -/
theorem claim_failure_sentinel (st : HuffmanCoding) (B : List Nat)
    (hB : ∀ b ∈ B, b < 256)
    (h : (bytesToBits B).length < 8
       ∨ 7 < bitsToNat ((bytesToBits B).take 8)
       ∨ (0 < bitsToNat ((bytesToBits B).take 8) ∧
           (bytesToBits B).length < 8 + bitsToNat ((bytesToBits B).take 8))
       ∨ strippedPayload (bytesToBits B) = []
       ∨ ∃ payload, remove_padding (bytesToBits B) = some payload ∧
           (decode_text_loop st.reverse_mapping payload [] []).2 ≠ []) :
    decompress st B = [] := by
  rcases h with h | h | h | h | ⟨payload, hp, hleft⟩
  · exact decompress_eq_nil_of_remove_padding_none st B (remove_padding_none_of_short h)
  · exact decompress_eq_nil_of_remove_padding_none st B (remove_padding_none_of_bad_padding h)
  · exact decompress_eq_nil_of_remove_padding_none st B (remove_padding_none_of_insufficient h)
  · exact decompress_eq_nil_of_remove_padding_none st B (remove_padding_none_of_empty_payload h)
  · exact decompress_eq_nil_of_leftover st B payload hp hleft

theorem claim_failure_sentinel_witness :
    decompress HuffmanCoding.init [] = [] :=
  claim_failure_sentinel HuffmanCoding.init [] (by decide) (Or.inl (by decide))

end Huffman
